import Mathlib

/-!
Verification development for the logparser repository.

The development shallowly embeds the three core components:
* the RocksDB LOG stream segmentation and seek engine,
* the bucket aggregation engine,
* the arithmetic expression engine.

Modelling conventions:
* A line and a file are lists of characters (one character per byte;
  the inputs of interest are ASCII).
* `time.Time` values are naturals.  For the aggregator a time is the
  number of nanoseconds since Go's zero instant (so `Truncate` is
  division); for the log-stream head timestamps a time is a strictly
  monotone mixed-radix encoding of the parsed calendar fields.  The
  zero time is `0` in both cases; comparisons (`Before`/`After`/
  `Equal`) are the natural order.  Claims never mix the two uses.
* `float64` values are modelled as exact rationals; the embedding keeps
  the explicit division-by-zero guard of the source.
* Go maps are modelled as association lists in first-insertion order
  (Go iteration order is unspecified, so any fixed order is one
  admissible execution).
-/

abbrev Line := List Char

def isDigitC (c : Char) : Bool := '0' ≤ c && c ≤ '9'

def readDigitsAux : Nat → Nat → Line → Option (Nat × Line)
  | 0, acc, cs => some (acc, cs)
  | n + 1, acc, c :: cs =>
    if isDigitC c then readDigitsAux n (acc * 10 + (c.toNat - '0'.toNat)) cs else none
  | _ + 1, _, [] => none

def readDigits (n : Nat) (cs : Line) : Option (Nat × Line) := readDigitsAux n 0 cs

def skipDigits (n : Nat) (cs : Line) : Option Line := (readDigits n cs).map Prod.snd

def expectChar (ch : Char) : Line → Option Line
  | c :: cs => if c = ch then some cs else none
  | [] => none

/-- Go `strings.Contains`: does `nee` occur as a contiguous substring of `hay`? -/
def containsSub (hay nee : Line) : Bool := hay.tails.any (fun t => nee.isPrefixOf t)

def wsChar (c : Char) : Bool :=
  c = ' ' || c = '\t' || c = '\n' || c = '\r' || c = '\x0b' || c = '\x0c'

/-- Go `strings.TrimSpace` (ASCII whitespace). -/
def trimWs (cs : Line) : Line := ((cs.dropWhile wsChar).reverse.dropWhile wsChar).reverse

def lowerC (c : Char) : Char :=
  if 'A' ≤ c && c ≤ 'Z' then Char.ofNat (c.toNat + 32) else c

/-- Go `strings.ToLower` (ASCII). -/
def lowerLine (cs : Line) : Line := cs.map lowerC

/-- Go `strings.TrimPrefix pre`: drop `pre` if it is a leading substring. -/
def stripPre (pre s : Line) : Line := if pre.isPrefixOf s then s.drop pre.length else s

/-- Function `stripLOGPrefix` of the source: `TrimLeft(TrimPrefix(s, "LOG:"), " ")`. -/
def stripLOG (s : Line) : Line := (stripPre "LOG:".data s).dropWhile (· = ' ')

/-- The `reTs` head pattern
`^[0-9]{4}/[0-9]{2}/[0-9]{2}-[0-9]{2}:[0-9]{2}:[0-9]{2}\.[0-9]+`. -/
def reTsMatch (s : Line) : Bool :=
  (do
    let s ← skipDigits 4 s
    let s ← expectChar '/' s
    let s ← skipDigits 2 s
    let s ← expectChar '/' s
    let s ← skipDigits 2 s
    let s ← expectChar '-' s
    let s ← skipDigits 2 s
    let s ← expectChar ':' s
    let s ← skipDigits 2 s
    let s ← expectChar ':' s
    let s ← skipDigits 2 s
    let s ← expectChar '.' s
    match s with
    | c :: _ => if isDigitC c then some () else none
    | [] => none).isSome

structure DT where
  y : Nat
  mo : Nat
  d : Nat
  h : Nat
  mi : Nat
  s : Nat
deriving DecidableEq

/-- Parse the common `YYYY/MM/DD-HH:MM:SS` portion of both Go layouts. -/
def parseDTCore (cs : Line) : Option (DT × Line) := do
  let (y, cs) ← readDigits 4 cs
  let cs ← expectChar '/' cs
  let (mo, cs) ← readDigits 2 cs
  let cs ← expectChar '/' cs
  let (d, cs) ← readDigits 2 cs
  let cs ← expectChar '-' cs
  let (h, cs) ← readDigits 2 cs
  let cs ← expectChar ':' cs
  let (mi, cs) ← readDigits 2 cs
  let cs ← expectChar ':' cs
  let (s, cs) ← readDigits 2 cs
  some (⟨y, mo, d, h, mi, s⟩, cs)

def leapYear (y : Nat) : Bool := y % 4 = 0 && (y % 100 ≠ 0 || y % 400 = 0)

def daysInMonth (y mo : Nat) : Nat :=
  if mo = 2 then (if leapYear y then 29 else 28)
  else if mo = 4 || mo = 6 || mo = 9 || mo = 11 then 30
  else 31

/-- The range checks `time.Parse` performs on the calendar fields. -/
def validDT (dt : DT) : Bool :=
  1 ≤ dt.mo && dt.mo ≤ 12 && 1 ≤ dt.d && dt.d ≤ daysInMonth dt.y dt.mo &&
  dt.h ≤ 23 && dt.mi ≤ 59 && dt.s ≤ 59

/-- Strictly monotone (w.r.t. chronological order of valid dates) encoding
of a parsed timestamp; `ns` is the fractional-second part in nanoseconds.
Always positive for a valid date (`mo ≥ 1`), so `0` can stand for Go's
zero `time.Time`. -/
def encDT (dt : DT) (ns : Nat) : Nat :=
  (((((dt.y * 13 + dt.mo) * 32 + dt.d) * 24 + dt.h) * 60 + dt.mi) * 60 + dt.s)
    * 1000000000 + ns

def digitsVal (ds : Line) : Nat := ds.foldl (fun a c => a * 10 + (c.toNat - '0'.toNat)) 0

/-- Fractional-second digits to nanoseconds (at most nine significant digits). -/
def fracNanos (ds : Line) : Nat := digitsVal (ds.take 9) * 10 ^ (9 - min ds.length 9)

/-- Function `headTime` of the source: strip the LOG prefix, take the token up to the
first space, and try the microsecond layout then the seconds layout.  The two
`ParseInLocation` attempts are merged: the datetime core parses identically in
both, a six-digit fraction is what the first layout accepts, and any other
nonempty all-digit fraction (after `.` or `,`) is the optional fractional
second the second layout accepts when parsing. -/
def headTime (s : Line) : Option Nat :=
  let tok := (stripLOG s).takeWhile (· ≠ ' ')
  match parseDTCore tok with
  | none => none
  | some (dt, rest) =>
    if validDT dt then
      match rest with
      | [] => some (encDT dt 0)
      | c :: ds =>
        if (c = '.' || c = ',') && !ds.isEmpty && ds.all isDigitC then
          some (encDT dt (fracNanos ds))
        else none
    else none

abbrev LogType := String

def LogTypeDump : LogType := "DUMP"
def LogTypeStatistics : LogType := "STATISTICS"
def LogTypeEvents : LogType := "EVENTS"
def LogTypeSlowLog : LogType := "SLOWLOG"
def LogTypeOther : LogType := "OTHER"

def isDBStatsHead (line : Line) : Bool := containsSub (stripLOG line) "[/db_impl.cc:670]".data

def classifyHead (line : Line) : LogType :=
  let s := stripLOG line
  if containsSub s "STATISTICS".data then LogTypeStatistics
  else if containsSub s "DUMPING STATS".data then LogTypeDump
  else if isDBStatsHead line then LogTypeDump
  else LogTypeOther

def lineHasEventSignal (l : Line) : Bool :=
  let s := trimWs l
  containsSub s "\"event\": \"compaction_started\"".data ||
  containsSub s "\"event\": \"compaction_finished\"".data ||
  containsSub s "\"event\": \"flush_started\"".data ||
  containsSub s "\"event\": \"flush_finished\"".data ||
  containsSub s "\"event\": \"trival_move\"".data ||
  containsSub s "\"event\": \"trivial_move\"".data ||
  containsSub s "\"event\": \"table_file_creation\"".data ||
  containsSub s "\"event\": \"table_file_deletion\"".data ||
  containsSub (lowerLine s) "table_file_creation".data ||
  containsSub (lowerLine s) "table_file_deletion".data ||
  containsSub s "Stalling writes because of estimated pending compaction bytes".data ||
  containsSub s "Stopping writes because of estimated pending compaction bytes".data

def classifyLineStatsDump (l : Line) : Option LogType :=
  if containsSub l "STATISTICS".data then some LogTypeStatistics
  else if containsSub l "DUMPING STATS".data || "** DB Stats **".data.isPrefixOf (trimWs l) then
    some LogTypeDump
  else none

def firstSome {α β : Type} (f : α → Option β) : List α → Option β
  | [] => none
  | a :: rest =>
    match f a with
    | some b => some b
    | none => firstSome f rest

/-- Function `classifyByContent`: the first loop returns `EVENTS` on the first line with
an event signal; the second returns the first statistics/dump match. -/
def classifyByContent (lines : List Line) : LogType :=
  if lines.any lineHasEventSignal then LogTypeEvents
  else (firstSome classifyLineStatsDump lines).getD LogTypeOther

structure LogItem where
  startTime : Nat
  lines : List Line
  itemType : LogType
deriving DecidableEq

def notHead (l : Line) : Bool := !(reTsMatch (stripLOG l))

/-- Function `buildItemFromHead`: gather continuation lines up to the next
timestamped line (the gather loop is the `takeWhile`/`dropWhile` split of
the remaining lines at the first head); if the item is a DUMP and the next
head is the DB-Stats header, fold that head and its continuations in and
stop at the following head.  `OTHER` items are re-classified by content.
Returns the built item and the lines still unread (the pushed-back head
first). -/
def buildItemFromHead (head : Line) (rest : List Line) : LogItem × List Line :=
  let t0 := classifyHead head
  let conts := rest.takeWhile notHead
  let after := rest.dropWhile notHead
  let (ls, rem) :=
    match after with
    | [] => (head :: conts, ([] : List Line))
    | nxt :: rest2 =>
      if t0 = LogTypeDump ∧ isDBStatsHead nxt then
        (head :: conts ++ nxt :: rest2.takeWhile notHead, rest2.dropWhile notHead)
      else (head :: conts, after)
  let ty := if t0 = LogTypeOther then classifyByContent ls else t0
  ({ startTime := (headTime head).getD 0, lines := ls, itemType := ty }, rem)

/-- Go `strings.Split` on `'\n'` (keeps every part, including empties). -/
def splitNl : List Char → List Line
  | [] => [[]]
  | c :: cs =>
    if c = '\n' then [] :: splitNl cs
    else
      match splitNl cs with
      | [] => [[c]]
      | l :: ls => (c :: l) :: ls

/-- Go `bufio.ScanLines` drops one trailing carriage return per line. -/
def dropCr (l : Line) : Line := if l.getLast? = some '\r' then l.dropLast else l

/-- The sequence of lines a `bufio.Scanner` yields for the file. -/
def scanLines (file : List Char) : List Line :=
  let parts := splitNl file
  let parts := if parts.getLast? = some [] then parts.dropLast else parts
  parts.map dropCr

/-- The last (at most) 1 MiB of the file, as read by `fastHasAnyAfter`. -/
def tailChunk (file : List Char) : List Char := file.drop (file.length - 1048576)

/-- The maximum head timestamp `fastHasAnyAfter` finds in the tail window
(`0` when none of the tail lines carries a parsable head timestamp). -/
def tailMax (file : List Char) : Nat :=
  (splitNl (tailChunk file)).foldl
    (fun acc ln =>
      match headTime ln with
      | some t => if acc < t then t else acc
      | none => acc) 0

/-- Function `fastHasAnyAfter` of the source (the success path of the stat/read
calls): empty file reports no data; an unparsable tail falls back to the
full scan by answering `true`. -/
def fastHasAnyAfter (file : List Char) (tgt : Nat) : Bool :=
  if file.length = 0 then false
  else if tailMax file = 0 then true
  else decide (tgt < tailMax file)

/-- The scan loop of `Seek`: walk lines; a non-head line is skipped; a head
whose timestamp parses and is at/after the target is built; any other head
is skipped cheaply by dropping its continuation lines up to the next head.
The fuel argument bounds the recursion; `List.length` fuel is always
sufficient (each step consumes at least one line). -/
def seekScanF : Nat → List Line → Nat → Option (LogItem × List Line)
  | _, [], _ => none
  | 0, _ :: _, _ => none
  | fuel + 1, l :: rest, tgt =>
    if notHead l then seekScanF fuel rest tgt
    else
      match headTime l with
      | some ht =>
        if tgt ≤ ht then some (buildItemFromHead l rest)
        else seekScanF fuel (rest.dropWhile notHead) tgt
      | none => seekScanF fuel (rest.dropWhile notHead) tgt

/-- Method `Seek` of the RocksDB LOG stream: the tail heuristic first, then the
forward scan.  `none` is the EOF outcome; `some (item, remaining)` means the
seek succeeded, the item is current (`Value` returns it) and `remaining` are
the unconsumed lines. -/
def seek (file : List Char) (tgt : Nat) : Option (LogItem × List Line) :=
  if fastHasAnyAfter file tgt then seekScanF (scanLines file).length (scanLines file) tgt
  else none

/-- Method `Next` of the RocksDB LOG stream: scan forward to the next line matching
the head pattern and build it. -/
def nextItem (lines : List Line) : Option (LogItem × List Line) :=
  match lines.dropWhile notHead with
  | [] => none
  | h :: rest => some (buildItemFromHead h rest)

/-- A line qualifying for `Seek`: a head (pattern match) whose timestamp
parses to a value at/after the target. -/
def qualHead (tgt : Nat) (l : Line) : Bool :=
  reTsMatch (stripLOG l) &&
    (match headTime l with
     | some ht => decide (tgt ≤ ht)
     | none => false)

/-- The first qualifying head of the line list, together with the lines
after it. -/
def firstQual : List Line → Nat → Option (Line × List Line)
  | [], _ => none
  | l :: rest, tgt => if qualHead tgt l then some (l, rest) else firstQual rest tgt

/-! ### Helper lemmas about takeWhile/dropWhile and the scan loop -/

theorem takeWhile_append_all {α : Type} {p : α → Bool} {pre suf : List α}
    (h : ∀ x ∈ pre, p x = true) :
    (pre ++ suf).takeWhile p = pre ++ suf.takeWhile p := by
  induction pre with
  | nil => simp
  | cons a l ih =>
    have ha : p a = true := h a (by simp)
    simp only [List.cons_append, List.takeWhile_cons, ha, if_true]
    rw [ih (fun x hx => h x (by simp [hx]))]

theorem dropWhile_append_all {α : Type} {p : α → Bool} {pre suf : List α}
    (h : ∀ x ∈ pre, p x = true) :
    (pre ++ suf).dropWhile p = suf.dropWhile p := by
  induction pre with
  | nil => simp
  | cons a l ih =>
    have ha : p a = true := h a (by simp)
    simp only [List.cons_append, List.dropWhile_cons, ha, if_true]
    exact ih (fun x hx => h x (by simp [hx]))

theorem length_dropWhile_le' {α : Type} (p : α → Bool) (l : List α) :
    (l.dropWhile p).length ≤ l.length := by
  induction l with
  | nil => simp
  | cons a l ih =>
    simp only [List.dropWhile_cons]
    split
    · exact Nat.le_succ_of_le ih
    · exact le_refl _

/-! ### Claim C3: non-zero startTime invariant -/

/-- A file whose single line matches the head pattern `reTs` (four digits,
two digits, ... with a fractional part) but whose timestamp token is not a
valid time (month 13), so `headTime` fails on it. -/
def c3File : List Char := "2025/13/01-00:00:00.000000 some event\n".data

/-- C3: the claim states that every record yielded by `Next`/`Value` has a
non-zero `startTime`.  The code violates this: `Next` builds an item from
any line matching the head pattern without checking that its timestamp
parses (`Seek` does check), so a pattern-matching head with an invalid
timestamp (here month 13) yields a record whose `startTime` is the zero
time.  This theorem evaluates the embedded `Next` at that failing input. -/
theorem c3_next_yields_zero_start_time :
    nextItem (scanLines c3File) =
      some ({ startTime := 0,
              lines := ["2025/13/01-00:00:00.000000 some event".data],
              itemType := LogTypeOther }, []) := by
  decide

/-! ### Claim C4: periodic-dump absorption of the DB-Stats head -/

/-- C4: in fixed-timestamp framing, a record classified "periodic dump"
whose very next head is the secondary DB-Stats marker absorbs that head and
its continuation lines into the same record, stopping at the head after
that; the next record yielded begins at that subsequent head. -/
theorem claim_C4 (H D H2 : Line) (c1 c2 rest : List Line)
    (hH : classifyHead H = LogTypeDump)
    (hc1 : ∀ l ∈ c1, notHead l = true)
    (hD : reTsMatch (stripLOG D) = true) (hDs : isDBStatsHead D = true)
    (hc2 : ∀ l ∈ c2, notHead l = true)
    (hH2 : notHead H2 = false) :
    buildItemFromHead H (c1 ++ D :: (c2 ++ H2 :: rest)) =
      ({ startTime := (headTime H).getD 0, lines := H :: (c1 ++ D :: c2),
         itemType := LogTypeDump }, H2 :: rest) ∧
    nextItem (H2 :: rest) = some (buildItemFromHead H2 rest) := by
  have hDnh : notHead D = false := by simp [notHead, hD]
  have htake : (c1 ++ D :: (c2 ++ H2 :: rest)).takeWhile notHead = c1 := by
    rw [takeWhile_append_all hc1, List.takeWhile_cons, hDnh]
    simp
  have hdrop : (c1 ++ D :: (c2 ++ H2 :: rest)).dropWhile notHead = D :: (c2 ++ H2 :: rest) := by
    rw [dropWhile_append_all hc1, List.dropWhile_cons, hDnh]
    simp
  have htake2 : (c2 ++ H2 :: rest).takeWhile notHead = c2 := by
    rw [takeWhile_append_all hc2, List.takeWhile_cons, hH2]
    simp
  have hdrop2 : (c2 ++ H2 :: rest).dropWhile notHead = H2 :: rest := by
    rw [dropWhile_append_all hc2, List.dropWhile_cons, hH2]
    simp
  have hne : ¬ (LogTypeDump = LogTypeOther) := by decide
  constructor
  · rw [buildItemFromHead]
    simp [hH, htake, hdrop, hDs, htake2, hdrop2, hne]
  · rw [nextItem, List.dropWhile_cons, hH2]
    simp

def c4H : Line :=
  "2025/01/02-03:04:05.000000 7f0a [INFO] [/db_impl.cc:123] ------- DUMPING STATS -------".data
def c4D : Line :=
  "2025/01/02-03:04:06.000000 7f0a [INFO] [/db_impl.cc:670] ** DB Stats **".data
def c4H2 : Line := "2025/01/02-03:04:07.000000 7f0a [INFO] next item".data

/-- Witness for C4 at a concrete periodic-dump block. -/
theorem claim_C4_witness :
    buildItemFromHead c4H (["Uptime(secs): 600.1 total".data] ++ c4D ::
        (["Cumulative writes: 10 writes".data] ++ c4H2 :: [])) =
      ({ startTime := (headTime c4H).getD 0,
         lines := c4H :: (["Uptime(secs): 600.1 total".data] ++ c4D ::
           ["Cumulative writes: 10 writes".data]),
         itemType := LogTypeDump }, c4H2 :: []) ∧
    nextItem (c4H2 :: []) = some (buildItemFromHead c4H2 []) :=
  claim_C4 c4H c4D c4H2 ["Uptime(secs): 600.1 total".data]
    ["Cumulative writes: 10 writes".data] [] (by decide) (by decide) (by decide)
    (by decide) (by decide) (by decide)

/-! ### Claim C2: the seek algorithm -/

theorem notHead_qualHead_false {tgt : Nat} {l : Line} (h : notHead l = true) :
    qualHead tgt l = false := by
  simp only [notHead, Bool.not_eq_true'] at h
  simp [qualHead, h]

theorem firstQual_append_nonqual {tgt : Nat} {pre suf : List Line}
    (h : ∀ l ∈ pre, qualHead tgt l = false) :
    firstQual (pre ++ suf) tgt = firstQual suf tgt := by
  induction pre with
  | nil => simp
  | cons a l ih =>
    have ha : qualHead tgt a = false := h a (by simp)
    simp only [List.cons_append, firstQual, ha]
    simp only [Bool.false_eq_true, if_false]
    exact ih (fun x hx => h x (by simp [hx]))

theorem firstQual_dropWhile_notHead {tgt : Nat} (rest : List Line) :
    firstQual (rest.dropWhile notHead) tgt = firstQual rest tgt := by
  conv_rhs => rw [← List.takeWhile_append_dropWhile (p := notHead) (l := rest)]
  rw [firstQual_append_nonqual]
  intro l hl
  exact notHead_qualHead_false (List.mem_takeWhile_imp hl)

/-- The seek scan loop, run with sufficient fuel, returns the item built
from the first qualifying head, with the lines after that head; the
cheap-skip inner loop never skips past a qualifying head. -/
theorem seekScanF_eq_firstQual :
    ∀ (fuel : Nat) (lines : List Line) (tgt : Nat), lines.length ≤ fuel →
    seekScanF fuel lines tgt =
      (firstQual lines tgt).map (fun pr => buildItemFromHead pr.1 pr.2) := by
  intro fuel
  induction fuel with
  | zero =>
    intro lines tgt h
    have : lines = [] := List.eq_nil_of_length_eq_zero (Nat.le_zero.mp h)
    subst this
    rfl
  | succ fuel ih =>
    intro lines tgt h
    match lines with
    | [] => rfl
    | l :: rest =>
      have hlen : rest.length ≤ fuel := by simpa using h
      by_cases hnh : notHead l = true
      · have hq : qualHead tgt l = false := notHead_qualHead_false hnh
        simp only [seekScanF, hnh, if_true, firstQual, hq, Bool.false_eq_true, if_false]
        exact ih rest tgt hlen
      · have hnh' : notHead l = false := Bool.not_eq_true _ ▸ Bool.of_not_eq_true hnh
        have hre : reTsMatch (stripLOG l) = true := by
          simpa [notHead] using hnh'
        simp only [seekScanF, hnh', Bool.false_eq_true, if_false]
        cases hht : headTime l with
        | some ht =>
          by_cases hle : tgt ≤ ht
          · have hq : qualHead tgt l = true := by simp [qualHead, hre, hht, hle]
            simp [hle, firstQual, hq]
          · have hq : qualHead tgt l = false := by simp [qualHead, hre, hht, hle]
            simp only [hle, if_false, firstQual, hq, Bool.false_eq_true]
            rw [ih (rest.dropWhile notHead) tgt
                (le_trans (length_dropWhile_le' _ _) hlen)]
            rw [firstQual_dropWhile_notHead]
        | none =>
          have hq : qualHead tgt l = false := by simp [qualHead, hre, hht]
          simp only [firstQual, hq, Bool.false_eq_true, if_false]
          rw [ih (rest.dropWhile notHead) tgt
              (le_trans (length_dropWhile_le' _ _) hlen)]
          rw [firstQual_dropWhile_notHead]

/-- C2: for every stream (file contents) and target time: if the maximum
head timestamp found in the ~1 MiB tail window is not after the target,
`Seek` reports EOF at once; otherwise (whenever the tail heuristic lets the
scan run) the scan skips every head before the target without keeping its
continuation lines and the current record is the one built from the first
head whose timestamp is at or after the target. -/
theorem claim_C2 (file : List Char) (tgt : Nat) :
    (tailMax file ≠ 0 → tailMax file ≤ tgt → seek file tgt = none) ∧
    (fastHasAnyAfter file tgt = true →
      ∀ h rest, firstQual (scanLines file) tgt = some (h, rest) →
        seek file tgt = some (buildItemFromHead h rest)) := by
  constructor
  · intro hne hle
    have hfast : fastHasAnyAfter file tgt = false := by
      unfold fastHasAnyAfter
      split
      · rfl
      · simp [hne, Nat.not_lt.mpr hle]
    simp [seek, hfast]
  · intro hfast h rest hfq
    rw [seek, if_pos hfast,
      seekScanF_eq_firstQual (scanLines file).length (scanLines file) tgt (le_refl _), hfq]
    rfl

def c2FileA : List Char := "2025/01/02-03:04:05.000000 all data before target\n".data

def c2FileB : List Char :=
  "2025/01/02-03:04:05.000000 first head\ncontinuation line\n2025/01/02-03:04:06.000000 second head\n".data

def c2LineB1 : Line := "2025/01/02-03:04:05.000000 first head".data

/-- Witness for C2: a file whose tail maximum is at the target time makes
`Seek` report EOF; on a file with data after the target, `Seek` returns the
record built from the first head at/after the target. -/
theorem claim_C2_witness :
    seek c2FileA (tailMax c2FileA) = none ∧
    seek c2FileB 0 =
      some (buildItemFromHead c2LineB1
        ["continuation line".data, "2025/01/02-03:04:06.000000 second head".data]) :=
  ⟨(claim_C2 c2FileA (tailMax c2FileA)).1 (by decide) (le_refl _),
   (claim_C2 c2FileB 0).2 (by decide) c2LineB1
     ["continuation line".data, "2025/01/02-03:04:06.000000 second head".data] (by decide)⟩

/-! ### BucketAggregator model -/

structure Metric where
  sourceType : LogType
  startTime : Nat
  name : String
  value : ℚ
deriving DecidableEq

inductive AggregateMode
  | count | sum | first | avg | delta
deriving DecidableEq

structure BucketAggregator where
  step : Int
  mode : AggregateMode
  groupBySource : Bool

/-- Function `alignToBucketStart`: for a positive step, `Truncate(step)` (floor to a
multiple of the step counted from the zero instant) followed by
`Truncate(time.Second)`; for a non-positive step only the second
truncation. -/
def alignToBucketStart (t : Nat) (step : Int) : Nat :=
  if step ≤ 0 then t / 1000000000 * 1000000000
  else t / step.toNat * step.toNat / 1000000000 * 1000000000

/-- Go map accumulation on a composite key: look the key up, create the
entry from `d` when absent, and apply the update `f` (new entries are
appended, fixing first-insertion iteration order). -/
def upsert {κ α : Type} [DecidableEq κ] (k : κ) (d : α) (f : α → α) :
    List (κ × α) → List (κ × α)
  | [] => [(k, f d)]
  | (k', v) :: rest => if k' = k then (k', f v) :: rest else (k', v) :: upsert k d f rest

/-- The grouping source: the point's own source type when grouping by
source is enabled, the catch-all category otherwise. -/
def srcOf (a : BucketAggregator) (m : Metric) : LogType :=
  if a.groupBySource then m.sourceType else LogTypeOther

structure SeriesAcc where
  st : LogType
  name : String
  pts : List Metric
deriving DecidableEq

/-- One step of the delta-mode grouping loop: skip zero-time points and
append the point to its series, keyed by `Name + "|" + source`. -/
def seriesStep (a : BucketAggregator) (sm : List (String × SeriesAcc)) (p : Metric) :
    List (String × SeriesAcc) :=
  if p.startTime = 0 then sm
  else
    let source := srcOf a p
    upsert (p.name ++ "|" ++ source) ⟨source, p.name, []⟩
      (fun sr => { sr with pts := sr.pts ++ [p] }) sm

/-- Delta mode, first pass: group the (non-zero-time) points into series,
keeping arrival order within a series. -/
def seriesMapOf (a : BucketAggregator) (metrics : List Metric) :
    List (String × SeriesAcc) :=
  metrics.foldl (seriesStep a) []

structure DeltaAcc where
  sum : ℚ
  st : LogType
  bkt : Nat
  nm : String
deriving DecidableEq

/-- Delta mode, second pass over one (sorted) series: the first point
contributes increment 0, each later point `value − previous value`; each
increment is added to the accumulator of the point's own bucket. -/
def deltaSeriesFold (step : Int) (nm : String) (st : LogType) :
    List Metric → Bool → ℚ → List ((Nat × String) × DeltaAcc) →
      List ((Nat × String) × DeltaAcc)
  | [], _, _, buckets => buckets
  | p :: pts, prevSet, prev, buckets =>
    let delta : ℚ := if prevSet then p.value - prev else 0
    let bkt := alignToBucketStart p.startTime step
    let buckets := upsert (bkt, nm ++ "|" ++ st) ⟨0, st, bkt, nm⟩
      (fun ac => { ac with sum := ac.sum + delta }) buckets
    deltaSeriesFold step nm st pts true p.value buckets

/-- Sort a series ascending by the points' original times (`sort.Slice`
with `Before`; tie order is unspecified in Go, the stable order is one
admissible execution). -/
def sortByTime (pts : List Metric) : List Metric :=
  pts.insertionSort (fun x y => x.startTime ≤ y.startTime)

/-- Delta mode, second pass over the whole series map: sort each series by
time and accumulate its increments into the buckets. -/
def deltaBucketsOf (step : Int) (sm : List (String × SeriesAcc)) :
    List ((Nat × String) × DeltaAcc) :=
  sm.foldl
    (fun buckets kv =>
      deltaSeriesFold step kv.2.name kv.2.st (sortByTime kv.2.pts) false 0 buckets) []

/-- The delta branch of `Aggregate`. -/
def aggregateDelta (a : BucketAggregator) (metrics : List Metric) : List Metric :=
  (deltaBucketsOf a.step (seriesMapOf a metrics)).map (fun kv =>
    { sourceType := kv.2.st, startTime := kv.2.bkt, name := kv.2.nm ++ "_Delta",
      value := kv.2.sum })

structure NAcc where
  sum : ℚ
  count : ℚ
  name : String
  st : LogType
  bkt : Nat
  firstVal : ℚ
  firstTime : Nat
  firstSet : Bool
deriving DecidableEq

/-- One step of the non-delta accumulation loop: drop zero-time points,
bucket the rest, and update count/sum and the earliest-point tracking. -/
def normStep (a : BucketAggregator) (m : List ((Nat × String) × NAcc)) (p : Metric) :
    List ((Nat × String) × NAcc) :=
  if p.startTime = 0 then m
  else
    let bkt := alignToBucketStart p.startTime a.step
    let source := srcOf a p
    upsert (bkt, p.name ++ "|" ++ source) ⟨0, 0, p.name, source, bkt, 0, 0, false⟩
      (fun ac =>
        let ac := { ac with count := ac.count + 1, sum := ac.sum + p.value }
        if ¬ ac.firstSet ∨ p.startTime < ac.firstTime then
          { ac with firstSet := true, firstTime := p.startTime, firstVal := p.value }
        else ac) m

/-- The per-mode output value and name suffix (the `default` arm of the
switch, not reachable for delta, mirrors the source). -/
def modeOut (mode : AggregateMode) (ac : NAcc) : String × ℚ :=
  match mode with
  | .count => (ac.name ++ "_Count", ac.count)
  | .sum => (ac.name ++ "_Sum", ac.sum)
  | .first => (ac.name ++ "_First", ac.firstVal)
  | .avg => (ac.name ++ "_Avg", if ac.count > 0 then ac.sum / ac.count else 0)
  | .delta => (ac.name ++ "_Sum", ac.sum)

/-- Method `BucketAggregator.Aggregate`. -/
def Aggregate (a : BucketAggregator) (metrics : List Metric) : List Metric :=
  if a.mode = .delta then aggregateDelta a metrics
  else
    (metrics.foldl (normStep a) []).map (fun kv =>
      { sourceType := kv.2.st, startTime := kv.2.bkt, name := (modeOut a.mode kv.2).1,
        value := (modeOut a.mode kv.2).2 })

/-! ### Claim C7: bucket alignment -/

/-- C7: for a positive step, alignment floors the time to the largest
multiple of the step not exceeding it (counted from the zero instant) and
then truncates to whole seconds; a non-positive step only truncates to
whole seconds; with a 10-minute step any point at 12:34:56 (of any day)
aligns to 12:30:00. -/
theorem claim_C7 (t : Nat) (step : Int) :
    (0 < step →
      alignToBucketStart t step = step.toNat * (t / step.toNat) / 1000000000 * 1000000000 ∧
      step.toNat * (t / step.toNat) ≤ t ∧
      (∀ k : Nat, step.toNat * k ≤ t → step.toNat * k ≤ step.toNat * (t / step.toNat))) ∧
    (step ≤ 0 → alignToBucketStart t step = t / 1000000000 * 1000000000) ∧
    (∀ d : Nat,
      alignToBucketStart (d * 86400000000000 + 45296000000000) 600000000000 =
        d * 86400000000000 + 45000000000000) := by
  refine ⟨fun hpos => ?_, fun hnonpos => ?_, fun d => ?_⟩
  · have hns : ¬ step ≤ 0 := not_le.mpr hpos
    have hs : 0 < step.toNat := by omega
    refine ⟨by rw [alignToBucketStart, if_neg hns, Nat.mul_comm (t / step.toNat) step.toNat],
      ?_, fun k hk => ?_⟩
    · calc step.toNat * (t / step.toNat) = t / step.toNat * step.toNat := Nat.mul_comm _ _
        _ ≤ t := Nat.div_mul_le_self t _
    · have : k ≤ t / step.toNat :=
        (Nat.le_div_iff_mul_le hs).mpr (by rw [Nat.mul_comm]; exact hk)
      exact Nat.mul_le_mul_left _ this
  · rw [alignToBucketStart, if_pos hnonpos]
  · have hns : ¬ (600000000000 : Int) ≤ 0 := by decide
    rw [alignToBucketStart, if_neg hns]
    have h1 : (600000000000 : Int).toNat = 600000000000 := by decide
    rw [h1]
    omega

/-- Witness for C7 at 12:34:56 with a 10-minute step (both step signs). -/
theorem claim_C7_witness :
    (alignToBucketStart 45296000000000 600000000000 =
      Int.toNat 600000000000 * (45296000000000 / Int.toNat 600000000000)
        / 1000000000 * 1000000000 ∧
     Int.toNat 600000000000 * (45296000000000 / Int.toNat 600000000000) ≤ 45296000000000) ∧
    alignToBucketStart 45296000000000 (-1) = 45296000000000 / 1000000000 * 1000000000 ∧
    alignToBucketStart (1 * 86400000000000 + 45296000000000) 600000000000 =
      1 * 86400000000000 + 45000000000000 :=
  ⟨⟨((claim_C7 45296000000000 600000000000).1 (by decide)).1,
    ((claim_C7 45296000000000 600000000000).1 (by decide)).2.1⟩,
   (claim_C7 45296000000000 (-1)).2.1 (by decide),
   (claim_C7 45296000000000 600000000000).2.2 1⟩

/-! ### Claim C8: zero-time points are dropped in every mode -/

theorem foldl_filter_skip {α β : Type} (p : α → Bool) (f : β → α → β)
    (h : ∀ (acc : β) (x : α), p x = false → f acc x = acc) :
    ∀ (ms : List α) (init : β), ms.foldl f init = (ms.filter p).foldl f init := by
  intro ms
  induction ms with
  | nil => intro init; rfl
  | cons x ms ih =>
    intro init
    simp only [List.foldl_cons, List.filter_cons]
    cases hx : p x
    · rw [h init x hx]
      simpa using ih init
    · simpa using ih (f init x)

/-- C8: for every aggregator configuration and mode, `Aggregate` of the
input equals `Aggregate` of the input with all zero-time points removed:
an unset-time point contributes to no group in any mode. -/
theorem claim_C8 (a : BucketAggregator) (ms : List Metric) :
    Aggregate a ms = Aggregate a (ms.filter (fun m => m.startTime ≠ 0)) := by
  have hseries : seriesMapOf a ms = seriesMapOf a (ms.filter (fun m => m.startTime ≠ 0)) := by
    unfold seriesMapOf
    exact foldl_filter_skip _ _
      (fun acc x hx => by
        have : x.startTime = 0 := by simpa using hx
        simp [seriesStep, this]) ms []
  have hnorm : ms.foldl (normStep a) [] =
      (ms.filter (fun m => m.startTime ≠ 0)).foldl (normStep a) [] := by
    exact foldl_filter_skip _ _
      (fun acc x hx => by
        have : x.startTime = 0 := by simpa using hx
        simp [normStep, this]) ms []
  by_cases hm : a.mode = .delta
  · simp only [Aggregate, hm, if_true]
    unfold aggregateDelta
    rw [hseries]
  · simp only [Aggregate, hm, if_false]
    rw [hnorm]

/-! ### Claim C9: the category-grouping flag in delta vs the other modes -/

/-- Replace a point's source category by the catch-all one. -/
def setOther (p : Metric) : Metric := { p with sourceType := LogTypeOther }

/-- Apply `setOther` to every point stored in a series accumulator. -/
def saccMapOther (sr : SeriesAcc) : SeriesAcc := ⟨sr.st, sr.name, sr.pts.map setOther⟩

theorem upsert_map_val {κ α β : Type} [DecidableEq κ] (G : α → β) (k : κ) (d : α)
    (f : α → α) (g : β → β) (hcomm : ∀ v, G (f v) = g (G v)) :
    ∀ l : List (κ × α),
      upsert k (G d) g (l.map (fun kv => (kv.1, G kv.2))) =
        (upsert k d f l).map (fun kv => (kv.1, G kv.2)) := by
  intro l
  induction l with
  | nil => simp [upsert, hcomm d]
  | cons kv rest ih =>
    simp only [List.map_cons, upsert]
    by_cases hk : kv.1 = k
    · simp [hk, hcomm kv.2]
    · simp [hk, ih]

theorem sortByTime_map_setOther (pts : List Metric) :
    sortByTime (pts.map setOther) = (sortByTime pts).map setOther := by
  unfold sortByTime
  exact (List.map_insertionSort
    (fun x y : Metric => x.startTime ≤ y.startTime)
    (fun x y : Metric => x.startTime ≤ y.startTime)
    setOther pts (fun a _ b _ => Iff.rfl)).symm

theorem deltaSeriesFold_map_setOther (step : Int) (nm : String) (st : LogType) :
    ∀ (pts : List Metric) (prevSet : Bool) (prev : ℚ)
      (buckets : List ((Nat × String) × DeltaAcc)),
      deltaSeriesFold step nm st (pts.map setOther) prevSet prev buckets =
        deltaSeriesFold step nm st pts prevSet prev buckets := by
  intro pts
  induction pts with
  | nil => intro _ _ _; rfl
  | cons p rest ih =>
    intro prevSet prev buckets
    simp only [List.map_cons, deltaSeriesFold]
    exact ih true p.value _

theorem seriesStep_setOther (step : Int) (mode mode' : AggregateMode)
    (sm : List (String × SeriesAcc)) (p : Metric) :
    seriesStep ⟨step, mode', true⟩ (sm.map (fun kv => (kv.1, saccMapOther kv.2))) (setOther p) =
      (seriesStep ⟨step, mode, false⟩ sm p).map (fun kv => (kv.1, saccMapOther kv.2)) := by
  by_cases hz : p.startTime = 0
  · simp [seriesStep, setOther, hz]
  · have h := upsert_map_val saccMapOther (p.name ++ "|" ++ LogTypeOther)
      (⟨LogTypeOther, p.name, []⟩ : SeriesAcc)
      (fun sr => { sr with pts := sr.pts ++ [p] })
      (fun sr => { sr with pts := sr.pts ++ [setOther p] })
      (fun v => by simp [saccMapOther]) sm
    simp only [seriesStep, setOther, hz, if_false]
    simpa [saccMapOther, srcOf, setOther] using h

theorem foldl_seriesStep_setOther (step : Int) (mode mode' : AggregateMode) :
    ∀ (ms : List Metric) (sm : List (String × SeriesAcc)),
      (ms.map setOther).foldl (seriesStep ⟨step, mode', true⟩)
          (sm.map (fun kv => (kv.1, saccMapOther kv.2))) =
        (ms.foldl (seriesStep ⟨step, mode, false⟩) sm).map
          (fun kv => (kv.1, saccMapOther kv.2)) := by
  intro ms
  induction ms with
  | nil => intro sm; rfl
  | cons p rest ih =>
    intro sm
    simp only [List.map_cons, List.foldl_cons]
    rw [seriesStep_setOther step mode mode' sm p]
    exact ih _

theorem seriesMapOf_setOther (step : Int) (mode mode' : AggregateMode) (ms : List Metric) :
    seriesMapOf ⟨step, mode', true⟩ (ms.map setOther) =
      (seriesMapOf ⟨step, mode, false⟩ ms).map (fun kv => (kv.1, saccMapOther kv.2)) := by
  unfold seriesMapOf
  simpa using foldl_seriesStep_setOther step mode mode' ms []

theorem foldl_fun_congr {α β : Type} (f g : β → α → β) (h : ∀ b a, f b a = g b a) :
    ∀ (l : List α) (init : β), l.foldl f init = l.foldl g init := by
  intro l
  induction l with
  | nil => intro init; rfl
  | cons a l ih => intro init; simp only [List.foldl_cons, h init a]; exact ih _

theorem deltaBucketsOf_map_other (step : Int) (sm : List (String × SeriesAcc)) :
    deltaBucketsOf step (sm.map (fun kv => (kv.1, saccMapOther kv.2))) =
      deltaBucketsOf step sm := by
  unfold deltaBucketsOf
  rw [List.foldl_map]
  apply foldl_fun_congr
  intro buckets kv
  show deltaSeriesFold step kv.2.name kv.2.st (sortByTime (kv.2.pts.map setOther)) false 0 buckets =
    deltaSeriesFold step kv.2.name kv.2.st (sortByTime kv.2.pts) false 0 buckets
  rw [sortByTime_map_setOther, deltaSeriesFold_map_setOther]

theorem normStep_setOther (step : Int) (mode mode' : AggregateMode)
    (acc : List ((Nat × String) × NAcc)) (p : Metric) :
    normStep ⟨step, mode', true⟩ acc (setOther p) = normStep ⟨step, mode, false⟩ acc p := rfl

theorem foldl_preserve_mem {α β : Type} (P : β → Prop) (f : β → α → β) :
    ∀ (l : List α) (init : β), (∀ acc x, x ∈ l → P acc → P (f acc x)) → P init → P (l.foldl f init) := by
  intro l
  induction l with
  | nil => intro init _ h; exact h
  | cons a l ih =>
    intro init hstep hinit
    exact ih (f init a) (fun acc x hx => hstep acc x (by simp [hx]))
      (hstep init a (by simp) hinit)

theorem upsert_forall {κ α : Type} [DecidableEq κ] (P : α → Prop) (k : κ) (d : α) (f : α → α)
    (hd : P (f d)) (hf : ∀ v, P v → P (f v)) :
    ∀ l : List (κ × α), (∀ kv ∈ l, P kv.2) → ∀ kv ∈ upsert k d f l, P kv.2 := by
  intro l
  induction l with
  | nil =>
    intro _ kv hkv
    simp only [upsert, List.mem_singleton] at hkv
    subst hkv
    exact hd
  | cons hd' rest ih =>
    intro h kv hkv
    simp only [upsert] at hkv
    by_cases hk : hd'.1 = k
    · rw [if_pos hk] at hkv
      rcases List.mem_cons.mp hkv with h1 | h2
      · subst h1; exact hf _ (h hd' (by simp))
      · exact h kv (by simp [h2])
    · rw [if_neg hk] at hkv
      rcases List.mem_cons.mp hkv with h1 | h2
      · subst h1; exact h hd' (by simp)
      · exact ih (fun kv hkv => h kv (by simp [hkv])) kv h2

theorem seriesMapOf_st_other (step : Int) (ms : List Metric) :
    ∀ kv ∈ seriesMapOf ⟨step, AggregateMode.delta, false⟩ ms, kv.2.st = LogTypeOther := by
  unfold seriesMapOf
  refine foldl_preserve_mem
    (fun sm : List (String × SeriesAcc) => ∀ kv ∈ sm, kv.2.st = LogTypeOther) _ ms [] ?_ ?_
  · intro acc x _ hacc
    unfold seriesStep
    by_cases hz : x.startTime = 0
    · simpa [hz] using hacc
    · simp only [hz, if_false]
      refine upsert_forall (fun v : SeriesAcc => v.st = LogTypeOther) _ _ _ ?_ ?_ acc hacc
      · rfl
      · intro v hv; exact hv
  · intro kv hkv
    simp at hkv

theorem deltaSeriesFold_st_other (step : Int) (nm : String) :
    ∀ (pts : List Metric) (prevSet : Bool) (prev : ℚ)
      (buckets : List ((Nat × String) × DeltaAcc)),
      (∀ kv ∈ buckets, kv.2.st = LogTypeOther) →
      ∀ kv ∈ deltaSeriesFold step nm LogTypeOther pts prevSet prev buckets,
        kv.2.st = LogTypeOther := by
  intro pts
  induction pts with
  | nil => intro _ _ _ h; exact h
  | cons p rest ih =>
    intro prevSet prev buckets h
    simp only [deltaSeriesFold]
    apply ih
    refine upsert_forall (fun v : DeltaAcc => v.st = LogTypeOther) _ _ _ ?_ ?_ buckets h
    · rfl
    · intro v hv; exact hv

theorem deltaBucketsOf_st_other (step : Int) (sm : List (String × SeriesAcc))
    (hsm : ∀ kv ∈ sm, kv.2.st = LogTypeOther) :
    ∀ kv ∈ deltaBucketsOf step sm, kv.2.st = LogTypeOther := by
  unfold deltaBucketsOf
  refine foldl_preserve_mem
    (fun b : List ((Nat × String) × DeltaAcc) => ∀ kv ∈ b, kv.2.st = LogTypeOther) _ sm [] ?_ ?_
  · intro acc x hx hacc
    have hst : x.2.st = LogTypeOther := hsm x hx
    rw [hst]
    exact deltaSeriesFold_st_other step x.2.name (sortByTime x.2.pts) false 0 acc hacc
  · intro kv hkv
    simp at hkv

/-- C9: the delta mode observes the category-grouping flag exactly as the
other four modes do.  First, for every mode, aggregating with grouping
disabled gives the same result as rewriting every point's category to the
catch-all one and aggregating with grouping enabled (so the flag enters
the delta series key exactly as it enters the count/sum/first/avg group
key).  Second, with grouping disabled every delta output metric carries
the catch-all category. -/
theorem claim_C9 (step : Int) (mode : AggregateMode) (ms : List Metric) :
    Aggregate ⟨step, mode, false⟩ ms =
      Aggregate ⟨step, mode, true⟩ (ms.map setOther) ∧
    (Aggregate ⟨step, AggregateMode.delta, false⟩ ms).all
      (fun m => m.sourceType == LogTypeOther) = true := by
  constructor
  · by_cases hm : mode = .delta
    · subst hm
      show aggregateDelta _ ms = aggregateDelta _ (ms.map setOther)
      unfold aggregateDelta
      rw [seriesMapOf_setOther step AggregateMode.delta AggregateMode.delta ms,
        deltaBucketsOf_map_other]
    · have h1 : (⟨step, mode, false⟩ : BucketAggregator).mode = mode := rfl
      have h2 : (⟨step, mode, true⟩ : BucketAggregator).mode = mode := rfl
      simp only [Aggregate, h1, h2, hm, if_false]
      rw [List.foldl_map]
      rw [foldl_fun_congr _ _ (fun b a => (normStep_setOther step mode mode b a).symm) ms []]
  · have hb := deltaBucketsOf_st_other step
      (seriesMapOf ⟨step, AggregateMode.delta, false⟩ ms)
      (seriesMapOf_st_other step ms)
    show (aggregateDelta _ ms).all _ = true
    unfold aggregateDelta
    rw [List.all_eq_true]
    intro m hm
    rcases List.mem_map.mp hm with ⟨kv, hkv, rfl⟩
    have := hb kv hkv
    simp [this]

/-! ### Claim C1: delta-mode semantics -/

/-- The value of the last point of a series, or `dflt` for an empty one. -/
def lastValD (pts : List Metric) (dflt : ℚ) : ℚ :=
  ((pts.map (fun q => q.value)).getLast?).getD dflt

theorem lastValD_cons (q : Metric) (pts : List Metric) (x : ℚ) :
    lastValD (q :: pts) x = lastValD pts q.value := by
  unfold lastValD
  cases pts with
  | nil => rfl
  | cons r rest =>
    simp only [List.map_cons]
    rcases e : (r.value :: List.map (fun q => q.value) rest).getLast? with _ | v
    · exact absurd e (by simp)
    · simp [e]

theorem deltaSeriesFold_single_bucket (step : Int) (nm : String) (st : LogType) (b : Nat) :
    ∀ (pts : List Metric) (prev S : ℚ),
      (∀ q ∈ pts, alignToBucketStart q.startTime step = b) →
      deltaSeriesFold step nm st pts true prev [((b, nm ++ "|" ++ st), ⟨S, st, b, nm⟩)] =
        [((b, nm ++ "|" ++ st), ⟨S + (lastValD pts prev - prev), st, b, nm⟩)] := by
  intro pts
  induction pts with
  | nil =>
    intro prev S _
    simp [deltaSeriesFold, lastValD]
  | cons q pts ih =>
    intro prev S hb
    have hq : alignToBucketStart q.startTime step = b := hb q (by simp)
    have hup : upsert (alignToBucketStart q.startTime step, nm ++ "|" ++ st)
        (⟨0, st, alignToBucketStart q.startTime step, nm⟩ : DeltaAcc)
        (fun ac => { ac with sum := ac.sum + (q.value - prev) })
        [((b, nm ++ "|" ++ st), ⟨S, st, b, nm⟩)] =
        [((b, nm ++ "|" ++ st), ⟨S + (q.value - prev), st, b, nm⟩)] := by
      simp [upsert, hq]
    simp only [deltaSeriesFold, if_true]
    rw [hup, ih q.value (S + (q.value - prev)) (fun x hx => hb x (by simp [hx])),
      lastValD_cons,
      show S + (q.value - prev) + (lastValD pts q.value - q.value) =
        S + (lastValD pts q.value - prev) from by ring]

theorem foldl_seriesStep_uniform (a : BucketAggregator) (n : String) (s : LogType) :
    ∀ (ms pts : List Metric),
      (∀ m ∈ ms, m.name = n ∧ m.sourceType = s ∧ m.startTime ≠ 0) →
      ms.foldl (seriesStep a)
        [(n ++ "|" ++ (if a.groupBySource then s else LogTypeOther),
          ⟨(if a.groupBySource then s else LogTypeOther), n, pts⟩)] =
      [(n ++ "|" ++ (if a.groupBySource then s else LogTypeOther),
        ⟨(if a.groupBySource then s else LogTypeOther), n, pts ++ ms⟩)] := by
  intro ms
  induction ms with
  | nil => intro pts _; simp
  | cons m ms ih =>
    intro pts h
    obtain ⟨hn, hs, hz⟩ := h m (by simp)
    simp only [List.foldl_cons]
    have hsrc : srcOf a m = (if a.groupBySource then s else LogTypeOther) := by
      unfold srcOf
      rw [hs]
    have hstep : seriesStep a
        [(n ++ "|" ++ (if a.groupBySource then s else LogTypeOther),
          ⟨(if a.groupBySource then s else LogTypeOther), n, pts⟩)] m =
        [(n ++ "|" ++ (if a.groupBySource then s else LogTypeOther),
          ⟨(if a.groupBySource then s else LogTypeOther), n, pts ++ [m]⟩)] := by
      unfold seriesStep
      rw [if_neg hz]
      simp [hsrc, hn, upsert]
    rw [hstep]
    have := ih (pts ++ [m]) (fun x hx => h x (by simp [hx]))
    simpa [List.append_assoc] using this

theorem seriesMapOf_single (a : BucketAggregator) (n : String) (s : LogType)
    (m0 : Metric) (rest : List Metric)
    (hu : ∀ m ∈ m0 :: rest, m.name = n ∧ m.sourceType = s ∧ m.startTime ≠ 0) :
    seriesMapOf a (m0 :: rest) =
      [(n ++ "|" ++ (if a.groupBySource then s else LogTypeOther),
        ⟨(if a.groupBySource then s else LogTypeOther), n, m0 :: rest⟩)] := by
  obtain ⟨hn, hs, hz⟩ := hu m0 (by simp)
  unfold seriesMapOf
  simp only [List.foldl_cons]
  have hsrc : srcOf a m0 = (if a.groupBySource then s else LogTypeOther) := by
    unfold srcOf
    rw [hs]
  have hstep : seriesStep a [] m0 =
      [(n ++ "|" ++ (if a.groupBySource then s else LogTypeOther),
        ⟨(if a.groupBySource then s else LogTypeOther), n, [m0]⟩)] := by
    unfold seriesStep
    rw [if_neg hz]
    simp [hsrc, hn, upsert]
  rw [hstep]
  have := foldl_seriesStep_uniform a n s rest [m0] (fun x hx => hu x (by simp [hx]))
  simpa using this

/-- C1: in delta mode the points are first grouped into one series per
(name, category) pair, sorted ascending by original time, differenced
(the first point of the series contributing 0, not its value), and only
then summed per bucket.  For a single series falling entirely into one
bucket the result is therefore one metric whose value telescopes to
(last value − first value) of the time-sorted series — for values
[10, 15, 12] in time order that is 2, not 5. -/
theorem claim_C1 (step : Int) (gbs : Bool) (n : String) (s : LogType) (b : Nat)
    (ms : List Metric) (hne : ms ≠ [])
    (hu : ∀ m ∈ ms, m.name = n ∧ m.sourceType = s ∧ m.startTime ≠ 0)
    (hb : ∀ m ∈ ms, alignToBucketStart m.startTime step = b) :
    Aggregate ⟨step, AggregateMode.delta, gbs⟩ ms =
      [{ sourceType := if gbs then s else LogTypeOther, startTime := b,
         name := n ++ "_Delta",
         value := lastValD (sortByTime ms) 0 -
           ((sortByTime ms).map (fun q => q.value)).head?.getD 0 }] := by
  obtain ⟨m0, rest, rfl⟩ := List.exists_cons_of_ne_nil hne
  show aggregateDelta _ _ = _
  unfold aggregateDelta
  rw [seriesMapOf_single ⟨step, AggregateMode.delta, gbs⟩ n s m0 rest hu]
  unfold deltaBucketsOf
  simp only [List.foldl_cons, List.foldl_nil]
  rcases hsort : sortByTime (m0 :: rest) with _ | ⟨p1, rest1⟩
  · exfalso
    have h0 := congrArg List.length hsort
    simp only [sortByTime, List.length_insertionSort] at h0
    simp at h0
  · have hmem : ∀ q ∈ p1 :: rest1, q ∈ m0 :: rest := by
      intro q hq
      have : q ∈ sortByTime (m0 :: rest) := by rw [hsort]; exact hq
      simpa [sortByTime] using this
    have hp1 : alignToBucketStart p1.startTime step = b := hb p1 (hmem p1 (by simp))
    show (deltaSeriesFold step n _ (p1 :: rest1) false 0 []).map _ = _
    simp only [deltaSeriesFold]
    rw [show (if (false : Bool) then p1.value - 0 else 0) = 0 from rfl]
    have hfresh : upsert (alignToBucketStart p1.startTime step,
          n ++ "|" ++ (if gbs then s else LogTypeOther))
        (⟨0, (if gbs then s else LogTypeOther), alignToBucketStart p1.startTime step, n⟩ : DeltaAcc)
        (fun ac => { ac with sum := ac.sum + 0 })
        [] =
        [((b, n ++ "|" ++ (if gbs then s else LogTypeOther)),
          ⟨0 + 0, (if gbs then s else LogTypeOther), b, n⟩)] := by
      simp [upsert, hp1]
    rw [hfresh]
    rw [deltaSeriesFold_single_bucket step n (if gbs then s else LogTypeOther) b rest1
      p1.value (0 + 0) (fun q hq => hb q (hmem q (by simp [hq])))]
    rw [lastValD_cons]
    simp only [List.map_cons, List.map_nil, List.head?_cons, Option.getD_some]
    norm_num

def c1ms : List Metric :=
  [⟨"STATISTICS", 601000000000, "M", 10⟩,
   ⟨"STATISTICS", 602000000000, "M", 15⟩,
   ⟨"STATISTICS", 603000000000, "M", 12⟩]

/-- Witness for C1: a single series with values [10, 15, 12] in time order
inside one 10-minute bucket aggregates to delta value 2 (not 5). -/
theorem claim_C1_witness :
    Aggregate ⟨600000000000, AggregateMode.delta, true⟩ c1ms =
      [{ sourceType := "STATISTICS", startTime := 600000000000,
         name := "M_Delta", value := 2 }] := by
  rw [claim_C1 600000000000 true "M" "STATISTICS" 600000000000 c1ms
    (by decide) (by decide) (by decide)]
  norm_num [c1ms, sortByTime, lastValD]
  rfl

/-! ### Expression engine model -/

inductive TokKind
  | invalid | num | name | op | lparen | rparen
deriving DecidableEq

structure Tok where
  kind : TokKind
  num : ℚ
  text : String
deriving DecidableEq

def isNameStart (c : Char) : Bool :=
  ('A' ≤ c && c ≤ 'Z') || ('a' ≤ c && c ≤ 'z') || c = '_'

def isNameChar (c : Char) : Bool := isNameStart c || isDigitC c

/-- The numeric-literal scan of `tokenize`: a maximal run of digits with at
most one decimal point. -/
def numScan (dot : Bool) : List Char → (List Char × List Char)
  | [] => ([], [])
  | c :: cs =>
    if isDigitC c then
      let (a, b) := numScan dot cs
      (c :: a, b)
    else if c = '.' && !dot then
      let (a, b) := numScan true cs
      (c :: a, b)
    else ([], c :: cs)

/-- Go `fmt.Sscanf(tok, "%f", &num)` on a token produced by the numeric scan;
a bare "." fails to parse and leaves the value 0. -/
def parseNum (cs : List Char) : ℚ :=
  let ip := cs.takeWhile isDigitC
  let rest := cs.dropWhile isDigitC
  match rest with
  | [] => (digitsVal ip : ℚ)
  | c :: fs =>
    if c = '.' then
      if ip.isEmpty && fs.isEmpty then 0
      else (digitsVal ip : ℚ) + (digitsVal fs : ℚ) / (10 : ℚ) ^ fs.length
    else (digitsVal ip : ℚ)

/-- Function `tokenize` (fuel-bounded; the input length is always sufficient fuel
since every iteration consumes at least one character). -/
def tokenizeF : Nat → List Char → Except String (List Tok)
  | _, [] => .ok []
  | 0, _ :: _ => .error "out of fuel"
  | fuel + 1, c :: cs =>
    if c = ' ' || c = '\t' || c = '\n' || c = '\r' then tokenizeF fuel cs
    else if c = '+' || c = '-' || c = '*' || c = '/' then
      (tokenizeF fuel cs).map (fun ts => ⟨.op, 0, String.mk [c]⟩ :: ts)
    else if c = '(' then (tokenizeF fuel cs).map (fun ts => ⟨.lparen, 0, "("⟩ :: ts)
    else if c = ')' then (tokenizeF fuel cs).map (fun ts => ⟨.rparen, 0, ")"⟩ :: ts)
    else if isNameStart c then
      (tokenizeF fuel (cs.dropWhile isNameChar)).map
        (fun ts => ⟨.name, 0, String.mk (c :: cs.takeWhile isNameChar)⟩ :: ts)
    else if isDigitC c || c = '.' then
      let (a, b) := numScan (c = '.') cs
      (tokenizeF fuel b).map (fun ts => ⟨.num, parseNum (c :: a), String.mk (c :: a)⟩ :: ts)
    else .error "unexpected character"

def tokenize (cs : List Char) : Except String (List Tok) := tokenizeF cs.length cs

def prec (op : String) : Int :=
  if op = "+" || op = "-" then 1
  else if op = "*" || op = "/" then 2
  else -1

/-- The operator case of the shunting-yard loop: pop operators of greater
or equal precedence to the output. -/
def popOpsGE (tk : Tok) : List Tok → (List Tok × List Tok)
  | [] => ([], [])
  | top :: rest =>
    if top.kind = TokKind.op ∧ prec top.text ≥ prec tk.text then
      let (ps, r) := popOpsGE tk rest
      (top :: ps, r)
    else ([], top :: rest)

/-- The right-parenthesis case: pop to the output until the matching left
parenthesis; `none` when there is none (mismatched parentheses). -/
def popToLParen : List Tok → List Tok → Option (List Tok × List Tok)
  | [], _ => none
  | top :: rest, acc =>
    if top.kind = TokKind.lparen then some (acc, rest)
    else popToLParen rest (acc ++ [top])

/-- The shunting-yard loop of `parseExpressionToRPN` over the token list,
carrying the output, the operator stack (head = top) and the set of
variable names seen (as a first-occurrence list). -/
def syLoop : List Tok → List Tok → List Tok → List String →
    Except String (List Tok × List String)
  | [], out, stack, vars =>
    if stack.any (fun t => t.kind == TokKind.lparen || t.kind == TokKind.rparen) then
      .error "mismatched parentheses"
    else .ok (out ++ stack, vars)
  | tk :: toks, out, stack, vars =>
    match tk.kind with
    | .num => syLoop toks (out ++ [tk]) stack vars
    | .name =>
      syLoop toks (out ++ [tk]) stack (if tk.text ∈ vars then vars else vars ++ [tk.text])
    | .op =>
      syLoop toks (out ++ (popOpsGE tk stack).1) (tk :: (popOpsGE tk stack).2) vars
    | .lparen => syLoop toks out (tk :: stack) vars
    | .rparen =>
      match popToLParen stack [] with
      | none => .error "mismatched parentheses"
      | some (adds, rest) => syLoop toks (out ++ adds) rest vars
    | .invalid => .error "invalid token"

def parseExpressionToRPN (formula : String) : Except String (List Tok × List String) :=
  match tokenize formula.data with
  | .error e => .error e
  | .ok toks => syLoop toks [] [] []

/-- Association-list lookup (a Go map read). -/
def alookup {κ α : Type} [DecidableEq κ] (k : κ) : List (κ × α) → Option α
  | [] => none
  | (k', v) :: rest => if k' = k then some v else alookup k rest

/-- The RPN evaluation loop of `evalRPN`, with the value stack (head =
top).  Division by zero is guarded to 0. -/
def evalSteps : List Tok → List (String × ℚ) → List ℚ → Except String (List ℚ)
  | [], _, stack => .ok stack
  | tk :: rpn, env, stack =>
    match tk.kind with
    | .num => evalSteps rpn env (tk.num :: stack)
    | .name =>
      match alookup tk.text env with
      | some v => evalSteps rpn env (v :: stack)
      | none => .error "missing variable"
    | .op =>
      match stack with
      | b :: a :: rest =>
        if tk.text = "+" then evalSteps rpn env ((a + b) :: rest)
        else if tk.text = "-" then evalSteps rpn env ((a - b) :: rest)
        else if tk.text = "*" then evalSteps rpn env ((a * b) :: rest)
        else if tk.text = "/" then
          evalSteps rpn env ((if b = 0 then 0 else a / b) :: rest)
        else .error "unknown operator"
      | _ => .error "stack underflow"
    | _ => .error "bad token in evaluation"

/-- Function `evalRPN`: run the loop on an empty stack and demand exactly one final
value.  The source's final safety net coerces a non-finite result to 0; on
the exact-rational model of float64 every value is finite, so that final
step is the identity here (division by zero, the one guarded special
case, already yields 0 in the loop). -/
def evalRPN (rpn : List Tok) (env : List (String × ℚ)) : Except String ℚ :=
  match evalSteps rpn env [] with
  | .error e => .error e
  | .ok s =>
    match s with
    | [res] => .ok res
    | _ => .error "evaluation error"

/-- One step of folding the metric collection into the
`time → name → summed value` table: skip zero-time points; sum duplicate
(time, name) pairs. -/
def tableStep (tb : List (Nat × List (String × ℚ))) (p : Metric) :
    List (Nat × List (String × ℚ)) :=
  if p.startTime = 0 then tb
  else upsert p.startTime [] (fun ns => upsert p.name 0 (fun v => v + p.value) ns) tb

/-- The folded `time → name → summed value` table of `Compute`. -/
def foldTable (metrics : List Metric) : List (Nat × List (String × ℚ)) :=
  metrics.foldl tableStep []

def timesOf (tb : List (Nat × List (String × ℚ))) : List Nat := tb.map Prod.fst

/-- Does every referenced variable have an entry at time `t`? -/
def varsPresentAt (tb : List (Nat × List (String × ℚ))) (vars : List String) (t : Nat) : Bool :=
  vars.all (fun v => (alookup v ((alookup t tb).getD [])).isSome)

/-- The output loop of `Compute`: evaluate the formula at each selected
time in order, aborting the whole call on the first evaluation error. -/
def evalLoop (rpn : List Tok) (tb : List (Nat × List (String × ℚ))) (outName : String) :
    List Nat → Except String (List Metric)
  | [] => .ok []
  | t :: ts =>
    match evalRPN rpn ((alookup t tb).getD []) with
    | .error e => .error ("evaluate: " ++ e)
    | .ok v =>
      match evalLoop rpn tb outName ts with
      | .error e => .error e
      | .ok rest =>
        .ok ({ sourceType := "EXPR", startTime := t, name := outName, value := v } :: rest)

/-- Method `MetricExpressionCalculator.Compute`. -/
def Compute (metrics : List Metric) (formula : String) (outName : String) :
    Except String (List Metric) :=
  if trimWs formula.data = [] then .error "empty formula"
  else
    match parseExpressionToRPN formula with
    | .error e => .error e
    | .ok (rpn, vars) =>
      let tb := foldTable metrics
      let times :=
        if vars.isEmpty then timesOf tb
        else (timesOf tb).filter (fun t => varsPresentAt tb vars t)
      if times.isEmpty then .ok []
      else
        evalLoop rpn tb
          (if outName = "" then String.mk (trimWs formula.data) else outName)
          (times.insertionSort (· ≤ ·))

/-! ### Claim C10: empty/whitespace formula -/

/-- C10: for every metric collection and output name, a formula that is
empty or consists only of whitespace makes `Compute` return the
empty-formula error and produce no output metrics. -/
theorem claim_C10 (metrics : List Metric) (outName formula : String)
    (hws : formula.data.all wsChar = true) :
    Compute metrics formula outName = .error "empty formula" := by
  have h1 : formula.data.dropWhile wsChar = [] := by
    rw [List.dropWhile_eq_nil_iff]
    exact fun x hx => List.all_eq_true.mp hws x hx
  have h2 : trimWs formula.data = [] := by
    unfold trimWs
    rw [h1]
    rfl
  unfold Compute
  rw [if_pos h2]

/-- Witness for C10 on the empty and the all-whitespace formula. -/
theorem claim_C10_witness :
    Compute [] "" "derived" = .error "empty formula" ∧
    Compute [] " \t " "derived" = .error "empty formula" :=
  ⟨claim_C10 [] "derived" "" (by decide), claim_C10 [] "derived" " \t " (by decide)⟩

/-! ### Claim C6: division by zero yields 0 -/

theorem evalLoop_mem (rpn : List Tok) (tb : List (Nat × List (String × ℚ))) (nm : String) :
    ∀ (ts : List Nat) (out : List Metric), evalLoop rpn tb nm ts = Except.ok out →
      ∀ m ∈ out,
        m.startTime ∈ ts ∧ m.name = nm ∧
        evalRPN rpn ((alookup m.startTime tb).getD []) = Except.ok m.value := by
  intro ts
  induction ts with
  | nil =>
    intro out h m hm
    simp only [evalLoop, Except.ok.injEq] at h
    subst h
    simp at hm
  | cons t ts ih =>
    intro out h m hm
    simp only [evalLoop] at h
    cases he : evalRPN rpn ((alookup t tb).getD []) with
    | error e => rw [he] at h; simp at h
    | ok v =>
      rw [he] at h
      cases hl : evalLoop rpn tb nm ts with
      | error e => rw [hl] at h; simp at h
      | ok rest =>
        rw [hl] at h
        simp only [Except.ok.injEq] at h
        subst h
        rcases List.mem_cons.mp hm with rfl | hmr
        · exact ⟨by simp, rfl, by simpa using he⟩
        · obtain ⟨h1, h2, h3⟩ := ih rest hl m hmr
          exact ⟨by simp [h1], h2, h3⟩

/-- Unfolding of a successful `Compute` call into its evaluation loop. -/
theorem Compute_ok_spec (metrics : List Metric) (formula nm : String)
    (rpn : List Tok) (vars : List String) (out : List Metric)
    (hp : parseExpressionToRPN formula = .ok (rpn, vars))
    (hne : trimWs formula.data ≠ [])
    (hc : Compute metrics formula nm = .ok out) :
    ((if vars.isEmpty then timesOf (foldTable metrics)
      else (timesOf (foldTable metrics)).filter
        (fun t => varsPresentAt (foldTable metrics) vars t)).isEmpty = true ∧ out = []) ∨
    evalLoop rpn (foldTable metrics)
      (if nm = "" then String.mk (trimWs formula.data) else nm)
      ((if vars.isEmpty then timesOf (foldTable metrics)
        else (timesOf (foldTable metrics)).filter
          (fun t => varsPresentAt (foldTable metrics) vars t)).insertionSort (· ≤ ·)) =
      .ok out := by
  unfold Compute at hc
  rw [if_neg hne, hp] at hc
  dsimp only at hc
  by_cases he : (if vars.isEmpty then timesOf (foldTable metrics)
      else (timesOf (foldTable metrics)).filter
        (fun t => varsPresentAt (foldTable metrics) vars t)).isEmpty
  · left
    rw [if_pos he] at hc
    simp only [Except.ok.injEq] at hc
    exact ⟨he, hc.symm⟩
  · right
    rw [if_neg he] at hc
    exact hc

def rpnXY : List Tok :=
  [⟨TokKind.name, 0, "X"⟩, ⟨TokKind.name, 0, "Y"⟩, ⟨TokKind.op, 0, "/"⟩]

theorem parse_XY : parseExpressionToRPN "X / Y" = .ok (rpnXY, ["X", "Y"]) := rfl

/-- C6: division by any value by zero yields 0 during evaluation (never a
non-finite value; on the rational model of float64 every result is finite
and the final non-finite coercion of the source is the identity), and for
the formula `X / Y`, every output metric of a successful `Compute` whose
instant carries the folded value 0 for `Y` has value exactly 0. -/
theorem claim_C6 (metrics : List Metric) (nm : String) (out : List Metric) (m : Metric)
    (env : List (String × ℚ)) (a : ℚ)
    (hc : Compute metrics "X / Y" nm = .ok out) (hm : m ∈ out)
    (hy : alookup "Y" ((alookup m.startTime (foldTable metrics)).getD []) = some 0) :
    evalRPN [⟨TokKind.num, a, ""⟩, ⟨TokKind.num, 0, ""⟩, ⟨TokKind.op, 0, "/"⟩] env =
      Except.ok 0 ∧
    m.value = 0 := by
  constructor
  · simp [evalRPN, evalSteps]
  · rcases Compute_ok_spec metrics "X / Y" nm rpnXY ["X", "Y"] out parse_XY
      (by decide) hc with ⟨_, rfl⟩ | hloop
    · simp at hm
    · obtain ⟨_, _, hev⟩ := evalLoop_mem rpnXY (foldTable metrics) _ _ out hloop m hm
      cases halX : alookup "X" ((alookup m.startTime (foldTable metrics)).getD []) with
      | none =>
        rw [evalRPN] at hev
        simp only [rpnXY, evalSteps, halX] at hev
        simp at hev
      | some x =>
        rw [evalRPN] at hev
        simp only [rpnXY, evalSteps, halX, hy] at hev
        simp at hev
        exact hev.symm

def c6ms : List Metric := [⟨"S", 5, "X", 3⟩, ⟨"S", 5, "Y", 0⟩]

theorem c6_foldTable :
    foldTable c6ms = [(5, [("X", (0 : ℚ) + 3), ("Y", (0 : ℚ) + 0)])] := rfl

/-- Witness for C6 at a concrete input with `Y = 0` at the only instant. -/
theorem claim_C6_witness :
    evalRPN [⟨TokKind.num, (5 : ℚ), ""⟩, ⟨TokKind.num, 0, ""⟩, ⟨TokKind.op, 0, "/"⟩] [] =
      Except.ok 0 ∧
    ({ sourceType := "EXPR", startTime := 5, name := "Q", value := 0 } : Metric).value = 0 := by
  have hy : alookup "Y" ((alookup (5 : Nat) (foldTable c6ms)).getD []) = some 0 := by
    rw [c6_foldTable]
    norm_num [alookup]
    decide
  have hc : Compute c6ms "X / Y" "Q" =
      .ok [{ sourceType := "EXPR", startTime := 5, name := "Q", value := 0 }] := by
    unfold Compute
    rw [if_neg (by decide), parse_XY]
    dsimp only
    rw [c6_foldTable]
    norm_num [timesOf, varsPresentAt, alookup, List.insertionSort, List.orderedInsert,
      evalLoop, evalRPN, evalSteps]
    simp +decide
  exact claim_C6 c6ms "Q" _ _ [] 5 hc (by simp) hy

/-! ### Claim C5: strict intersection of variable instants, sorted output -/

theorem alookup_upsert_self {κ α : Type} [DecidableEq κ] (k : κ) (d : α) (f : α → α) :
    ∀ l : List (κ × α), alookup k (upsert k d f l) = some (f ((alookup k l).getD d)) := by
  intro l
  induction l with
  | nil => simp [upsert, alookup]
  | cons kv rest ih =>
    by_cases hk : kv.1 = k
    · simp [upsert, alookup, hk]
    · simp [upsert, alookup, hk, ih]

theorem alookup_upsert_ne {κ α : Type} [DecidableEq κ] {k k' : κ} (d : α) (f : α → α)
    (h : k' ≠ k) :
    ∀ l : List (κ × α), alookup k' (upsert k d f l) = alookup k' l := by
  intro l
  induction l with
  | nil =>
    have h2 : ¬ k = k' := fun hh => h hh.symm
    simp [upsert, alookup, h2]
  | cons kv rest ih =>
    obtain ⟨k₁, v⟩ := kv
    by_cases hk : k₁ = k
    · subst hk
      have h2 : ¬ k₁ = k' := fun hh => h hh.symm
      simp [upsert, alookup, h2]
    · by_cases hk' : k₁ = k'
      · simp [upsert, alookup, hk, hk', h]
      · simp [upsert, alookup, hk, hk', ih]

theorem mem_keys_upsert {κ α : Type} [DecidableEq κ] (k t : κ) (d : α) (f : α → α) :
    ∀ l : List (κ × α), t ∈ (upsert k d f l).map Prod.fst ↔ t = k ∨ t ∈ l.map Prod.fst := by
  intro l
  induction l with
  | nil => simp [upsert]
  | cons kv rest ih =>
    obtain ⟨k₁, v⟩ := kv
    by_cases hk : k₁ = k
    · subst hk
      unfold upsert
      rw [if_pos rfl]
      simp only [List.map_cons, List.mem_cons]
      tauto
    · simp only [upsert, if_neg hk, List.map_cons, List.mem_cons, ih]
      tauto

theorem upsert_keys_nodup {κ α : Type} [DecidableEq κ] (k : κ) (d : α) (f : α → α) :
    ∀ l : List (κ × α), (l.map Prod.fst).Nodup → ((upsert k d f l).map Prod.fst).Nodup := by
  intro l
  induction l with
  | nil => simp [upsert]
  | cons kv rest ih =>
    intro hnd
    obtain ⟨k₁, v⟩ := kv
    simp only [List.map_cons, List.nodup_cons] at hnd
    by_cases hk : k₁ = k
    · subst hk
      unfold upsert
      rw [if_pos rfl]
      simp only [List.map_cons, List.nodup_cons]
      exact hnd
    · simp only [upsert, if_neg hk, List.map_cons, List.nodup_cons, mem_keys_upsert]
      refine ⟨?_, ih hnd.2⟩
      rintro (h | h)
      · exact hk h
      · exact hnd.1 h

theorem mem_timesOf_iff (tb : List (Nat × List (String × ℚ))) (t : Nat) :
    t ∈ timesOf tb ↔ (alookup t tb).isSome = true := by
  unfold timesOf
  induction tb with
  | nil => simp [alookup]
  | cons kv rest ih =>
    by_cases hk : kv.1 = t
    · simp [alookup, hk]
    · simp [alookup, hk, ih, Ne.symm hk]

theorem timeLookup_foldTable :
    ∀ (ms : List Metric) (tb : List (Nat × List (String × ℚ))) (t : Nat),
      (alookup t (ms.foldl tableStep tb)).isSome = true ↔
        ((alookup t tb).isSome = true ∨ ∃ m ∈ ms, m.startTime = t ∧ t ≠ 0) := by
  intro ms
  induction ms with
  | nil => intro tb t; simp
  | cons p ms ih =>
    intro tb t
    simp only [List.foldl_cons]
    rw [ih]
    unfold tableStep
    by_cases hz : p.startTime = 0
    · rw [if_pos hz]
      constructor
      · rintro (h | h)
        · exact Or.inl h
        · exact Or.inr (by obtain ⟨m, hm, h1, h2⟩ := h; exact ⟨m, by simp [hm], h1, h2⟩)
      · rintro (h | ⟨m, hm, h1, h2⟩)
        · exact Or.inl h
        · rcases List.mem_cons.mp hm with rfl | hm'
          · exact absurd (h1 ▸ hz) h2
          · exact Or.inr ⟨m, hm', h1, h2⟩
    · rw [if_neg hz]
      by_cases ht : t = p.startTime
      · subst ht
        rw [alookup_upsert_self]
        simp only [Option.isSome_some, true_or, true_iff]
        exact Or.inr ⟨p, by simp, rfl, hz⟩
      · rw [alookup_upsert_ne _ _ ht]
        constructor
        · rintro (h | h)
          · exact Or.inl h
          · exact Or.inr (by obtain ⟨m, hm, h1, h2⟩ := h; exact ⟨m, by simp [hm], h1, h2⟩)
        · rintro (h | ⟨m, hm, h1, h2⟩)
          · exact Or.inl h
          · rcases List.mem_cons.mp hm with rfl | hm'
            · exact absurd h1.symm ht
            · exact Or.inr ⟨m, hm', h1, h2⟩

theorem nameLookup_foldTable :
    ∀ (ms : List Metric) (tb : List (Nat × List (String × ℚ))) (t : Nat) (v : String),
      (alookup v ((alookup t (ms.foldl tableStep tb)).getD [])).isSome = true ↔
        ((alookup v ((alookup t tb).getD [])).isSome = true ∨
          ∃ m ∈ ms, m.startTime = t ∧ m.name = v ∧ t ≠ 0) := by
  intro ms
  induction ms with
  | nil => intro tb t v; simp
  | cons p ms ih =>
    intro tb t v
    simp only [List.foldl_cons]
    rw [ih]
    unfold tableStep
    by_cases hz : p.startTime = 0
    · rw [if_pos hz]
      constructor
      · rintro (h | h)
        · exact Or.inl h
        · exact Or.inr (by obtain ⟨m, hm, h1, h2, h3⟩ := h; exact ⟨m, by simp [hm], h1, h2, h3⟩)
      · rintro (h | ⟨m, hm, h1, h2, h3⟩)
        · exact Or.inl h
        · rcases List.mem_cons.mp hm with rfl | hm'
          · exact absurd (h1 ▸ hz) h3
          · exact Or.inr ⟨m, hm', h1, h2, h3⟩
    · rw [if_neg hz]
      by_cases ht : t = p.startTime
      · subst ht
        rw [alookup_upsert_self]
        simp only [Option.getD_some]
        by_cases hv : v = p.name
        · subst hv
          rw [alookup_upsert_self]
          simp only [Option.isSome_some, true_or, true_iff]
          exact Or.inr ⟨p, by simp, rfl, rfl, hz⟩
        · rw [alookup_upsert_ne _ _ hv]
          constructor
          · rintro (h | h)
            · exact Or.inl h
            · exact Or.inr
                (by obtain ⟨m, hm, h1, h2, h3⟩ := h; exact ⟨m, by simp [hm], h1, h2, h3⟩)
          · rintro (h | ⟨m, hm, h1, h2, h3⟩)
            · exact Or.inl h
            · rcases List.mem_cons.mp hm with rfl | hm'
              · exact absurd h2.symm hv
              · exact Or.inr ⟨m, hm', h1, h2, h3⟩
      · rw [alookup_upsert_ne _ _ ht]
        constructor
        · rintro (h | h)
          · exact Or.inl h
          · exact Or.inr
              (by obtain ⟨m, hm, h1, h2, h3⟩ := h; exact ⟨m, by simp [hm], h1, h2, h3⟩)
        · rintro (h | ⟨m, hm, h1, h2, h3⟩)
          · exact Or.inl h
          · rcases List.mem_cons.mp hm with rfl | hm'
            · exact absurd h1.symm ht
            · exact Or.inr ⟨m, hm', h1, h2, h3⟩

theorem foldTable_timeKey (metrics : List Metric) (t : Nat) :
    (alookup t (foldTable metrics)).isSome = true ↔
      ∃ m ∈ metrics, m.startTime = t ∧ t ≠ 0 := by
  unfold foldTable
  rw [timeLookup_foldTable]
  simp [alookup]

theorem foldTable_nameKey (metrics : List Metric) (t : Nat) (v : String) :
    (alookup v ((alookup t (foldTable metrics)).getD [])).isSome = true ↔
      ∃ m ∈ metrics, m.startTime = t ∧ m.name = v ∧ t ≠ 0 := by
  unfold foldTable
  rw [nameLookup_foldTable]
  simp [alookup]

theorem foldTable_keys_nodup (metrics : List Metric) :
    ((foldTable metrics).map Prod.fst).Nodup := by
  unfold foldTable
  refine foldl_preserve_mem
    (fun tb : List (Nat × List (String × ℚ)) => (tb.map Prod.fst).Nodup) _ metrics [] ?_ ?_
  · intro acc p _ h
    unfold tableStep
    split
    · exact h
    · exact upsert_keys_nodup _ _ _ acc h
  · simp

/-- An instant qualifies (appears in the filtered time list) exactly when
it is non-zero and every referenced variable has a point there. -/
theorem mem_filter_qualifies (metrics : List Metric) (vars : List String)
    (hv : vars ≠ []) (t : Nat) :
    t ∈ (timesOf (foldTable metrics)).filter
        (fun u => varsPresentAt (foldTable metrics) vars u) ↔
      (t ≠ 0 ∧ ∀ v ∈ vars, ∃ m ∈ metrics, m.startTime = t ∧ m.name = v) := by
  rw [List.mem_filter, mem_timesOf_iff, foldTable_timeKey]
  unfold varsPresentAt
  rw [List.all_eq_true]
  constructor
  · rintro ⟨⟨m, hm, h1, h2⟩, hall⟩
    refine ⟨h2, fun v hvv => ?_⟩
    obtain ⟨m', hm', e1, e2, _⟩ := (foldTable_nameKey metrics t v).mp (hall v hvv)
    exact ⟨m', hm', e1, e2⟩
  · rintro ⟨ht0, hvars⟩
    obtain ⟨v₀, hv₀⟩ := List.exists_mem_of_ne_nil vars hv
    obtain ⟨m₀, hm₀, e1, e2⟩ := hvars v₀ hv₀
    refine ⟨⟨m₀, hm₀, e1, ht0⟩, fun v hvv => ?_⟩
    obtain ⟨m, hm, f1, f2⟩ := hvars v hvv
    exact (foldTable_nameKey metrics t v).mpr ⟨m, hm, f1, f2, ht0⟩

theorem evalLoop_times (rpn : List Tok) (tb : List (Nat × List (String × ℚ))) (nm : String) :
    ∀ (ts : List Nat) (out : List Metric), evalLoop rpn tb nm ts = Except.ok out →
      out.map (fun m => m.startTime) = ts := by
  intro ts
  induction ts with
  | nil =>
    intro out h
    simp only [evalLoop, Except.ok.injEq] at h
    subst h
    rfl
  | cons t ts ih =>
    intro out h
    simp only [evalLoop] at h
    cases he : evalRPN rpn ((alookup t tb).getD []) with
    | error e => rw [he] at h; simp at h
    | ok v =>
      rw [he] at h
      cases hl : evalLoop rpn tb nm ts with
      | error e => rw [hl] at h; simp at h
      | ok rest =>
        rw [hl] at h
        simp only [Except.ok.injEq] at h
        subst h
        simp [ih rest hl]

/-- C5: when the formula references at least one variable and `Compute`
succeeds, the output has exactly one metric per non-zero instant at which
every referenced variable is present (instants missing any variable are
skipped), and the output times are strictly ascending. -/
theorem claim_C5 (metrics : List Metric) (formula nm : String)
    (rpn : List Tok) (vars : List String) (out : List Metric)
    (hp : parseExpressionToRPN formula = .ok (rpn, vars))
    (hv : vars ≠ []) (hc : Compute metrics formula nm = .ok out) :
    (∀ t : Nat, t ∈ out.map (fun m => m.startTime) ↔
      (t ≠ 0 ∧ ∀ v ∈ vars, ∃ m ∈ metrics, m.startTime = t ∧ m.name = v)) ∧
    (out.map (fun m => m.startTime)).Pairwise (· < ·) := by
  have hne : trimWs formula.data ≠ [] := by
    intro h
    unfold Compute at hc
    rw [if_pos h] at hc
    simp at hc
  have hie : vars.isEmpty = false := by
    cases vars
    · exact absurd rfl hv
    · rfl
  rcases Compute_ok_spec metrics formula nm rpn vars out hp hne hc with ⟨hemp, rfl⟩ | hloop
  · rw [hie] at hemp
    simp only [Bool.false_eq_true, if_false] at hemp
    have hnil : (timesOf (foldTable metrics)).filter
        (fun u => varsPresentAt (foldTable metrics) vars u) = [] := by
      simpa using hemp
    refine ⟨fun t => ?_, by simp⟩
    simp only [List.map_nil, List.not_mem_nil, false_iff]
    intro hq
    have := (mem_filter_qualifies metrics vars hv t).mpr hq
    rw [hnil] at this
    simp at this
  · rw [hie] at hloop
    simp only [Bool.false_eq_true, if_false] at hloop
    rw [evalLoop_times _ _ _ _ out hloop]
    constructor
    · intro t
      rw [List.mem_insertionSort]
      exact mem_filter_qualifies metrics vars hv t
    · have hnd : ((timesOf (foldTable metrics)).filter
          (fun u => varsPresentAt (foldTable metrics) vars u)).Nodup :=
        List.Nodup.filter _ (by simpa [timesOf] using foldTable_keys_nodup metrics)
      have hnd2 : (((timesOf (foldTable metrics)).filter
          (fun u => varsPresentAt (foldTable metrics) vars u)).insertionSort (· ≤ ·)).Nodup :=
        ((List.perm_insertionSort _ _).nodup_iff).mpr hnd
      have hs := List.sorted_insertionSort (α := Nat) (· ≤ ·)
        ((timesOf (foldTable metrics)).filter
          (fun u => varsPresentAt (foldTable metrics) vars u))
      exact (List.Pairwise.and hs hnd2).imp (fun h => lt_of_le_of_ne h.1 h.2)

def c5ms : List Metric := [⟨"S", 1, "A", 1⟩, ⟨"S", 2, "A", 1⟩, ⟨"S", 1, "B", 1⟩]

def rpnAB : List Tok :=
  [⟨TokKind.name, 0, "A"⟩, ⟨TokKind.name, 0, "B"⟩, ⟨TokKind.op, 0, "+"⟩]

theorem parse_AB : parseExpressionToRPN "A + B" = .ok (rpnAB, ["A", "B"]) := rfl

theorem c5_foldTable :
    foldTable c5ms =
      [(1, [("A", (0 : ℚ) + 1), ("B", (0 : ℚ) + 1)]), (2, [("A", (0 : ℚ) + 1)])] := rfl

/-- Witness for C5: A has points at instants 1 and 2, B only at 1; the
output of `A + B` has exactly one point, at instant 1. -/
theorem claim_C5_witness :
    ((1 : Nat) ∈
        ([{ sourceType := "EXPR", startTime := 1, name := "S", value := (2 : ℚ) }] :
          List Metric).map (fun m => m.startTime) ↔
      ((1 : Nat) ≠ 0 ∧ ∀ v ∈ ["A", "B"], ∃ m ∈ c5ms, m.startTime = 1 ∧ m.name = v)) ∧
    ((2 : Nat) ∈
        ([{ sourceType := "EXPR", startTime := 1, name := "S", value := (2 : ℚ) }] :
          List Metric).map (fun m => m.startTime) ↔
      ((2 : Nat) ≠ 0 ∧ ∀ v ∈ ["A", "B"], ∃ m ∈ c5ms, m.startTime = 2 ∧ m.name = v)) ∧
    (([{ sourceType := "EXPR", startTime := 1, name := "S", value := (2 : ℚ) }] :
        List Metric).map (fun m => m.startTime)).Pairwise (· < ·) := by
  have hc : Compute c5ms "A + B" "S" =
      .ok [{ sourceType := "EXPR", startTime := 1, name := "S", value := (2 : ℚ) }] := by
    unfold Compute
    rw [if_neg (by decide), parse_AB]
    dsimp only
    rw [c5_foldTable]
    norm_num [timesOf, varsPresentAt, alookup, List.insertionSort, List.orderedInsert,
      evalLoop, evalRPN, evalSteps]
    simp +decide
  obtain ⟨hiff, hpw⟩ := claim_C5 c5ms "A + B" "S" rpnAB ["A", "B"] _ parse_AB
    (by decide) hc
  exact ⟨hiff 1, hiff 2, hpw⟩
